import Mathlib

/-!
Verification of the list-reordering / option-merge utilities of the
hikma-health admin front-end: `orderedList`, `deduplicateOptions`,
`fieldOptionsUnion` and `safeJSONParse`, embedded as Lean functions.
-/

namespace Hikma

/-- An option of a form field, `{ value: string, label: string }`.
Identity is `value`; `label` is display metadata. -/
structure FieldOption where
  value : String
  label : String
deriving DecidableEq, Repr

/-! ### `orderedList` (utility module, lines 72–116)

The count map `Map<string, number>` is modelled as a function
`String → Nat`: `countMap.has(item)` is `0 < m item`, and the source's
delete-at-one / decrement-above-one maintenance coincides with plain
decrement in this model (a deleted key and a key stored at 0 are both
"count 0"). -/

/-- `countMap.set(item, (countMap.get(item) || 0) + 1)`. -/
def bumpCount (m : String → Nat) (item : String) : String → Nat :=
  fun t => if t = item then m t + 1 else m t

/-- The `remaining.forEach` pass that builds the multiplicity map. -/
def countMapOf (l : List String) : String → Nat :=
  l.foldl bumpCount (fun _ => 0)

/-- Decrement (or delete, at count 1) the entry of `item`. -/
def decCount (m : String → Nat) (item : String) : String → Nat :=
  fun t => if t = item then m t - 1 else m t

/-- The `for (const item of list2)` loop: skip the `"_"` placeholder, and
for each item present in the count map push it and decrement. Returns the
pushed items and the remaining counts. -/
def consumeList2 : (String → Nat) → List String → List String × (String → Nat)
  | m, [] => ([], m)
  | m, item :: rest =>
    if item = "_" then consumeList2 m rest
    else if 0 < m item then
      let p := consumeList2 (decCount m item) rest
      (item :: p.1, p.2)
    else consumeList2 m rest

/-- The final `remaining.forEach` pass: push every item still present in the
count map and decrement. -/
def consumeRemaining : (String → Nat) → List String → List String × (String → Nat)
  | m, [] => ([], m)
  | m, item :: rest =>
    if 0 < m item then
      let p := consumeRemaining (decCount m item) rest
      (item :: p.1, p.2)
    else consumeRemaining m rest

/-- `orderedList(list1, list2)` on two genuine arrays (the `Array.isArray`
guards live in `orderedListJS`). `list1.filter((item) => item)` keeps the
truthy strings, i.e. drops `""`. -/
def orderedList (list1 list2 : List String) : List String :=
  let remaining := list1.filter (fun item => item ≠ "")
  let countMap := countMapOf remaining
  let p2 := consumeList2 countMap list2
  let p1 := consumeRemaining p2.2 remaining
  p2.1 ++ p1.1

/-- A JavaScript argument to `orderedList`: a genuine array of strings, or a
non-array value (carried as its display text; only its non-arrayness
matters). -/
inductive JsArg where
  | arr (l : List String)
  | notArr (v : String)
deriving DecidableEq, Repr

/-- `orderedList` with its `Array.isArray` guards: a non-array `list1` gives
`[]`; an array `list1` with a non-array `list2` is returned unchanged. -/
def orderedListJS : JsArg → JsArg → List String
  | .notArr _, _ => []
  | .arr l1, .notArr _ => l1
  | .arr l1, .arr l2 => orderedList l1 l2

example : orderedList ["a", "b", "a"] ["b", "_", "a"] = ["b", "a", "a"] := by decide
example : orderedList [""] [] = [] := by decide
example : orderedList ["a", "b"] [] = ["a", "b"] := by decide

/-! ### Counting lemmas for `orderedList` -/

theorem foldl_bumpCount (l : List String) (m : String → Nat) (t : String) :
    l.foldl bumpCount m t = m t + l.count t := by
  induction l generalizing m with
  | nil => simp
  | cons x xs ih =>
    rw [List.foldl_cons, ih]
    by_cases ht : t = x
    all_goals simp [bumpCount, List.count_cons, ht]
    all_goals omega

theorem countMapOf_eq_count (l : List String) (t : String) :
    countMapOf l t = l.count t := by
  simpa using foldl_bumpCount l (fun _ => 0) t

theorem consumeList2_count (l2 : List String) (m : String → Nat) (t : String) :
    (consumeList2 m l2).2 t ≤ m t ∧
    (consumeList2 m l2).1.count t + (consumeList2 m l2).2 t = m t := by
  induction l2 generalizing m with
  | nil => simp [consumeList2]
  | cons item rest ih =>
    by_cases hu : item = "_"
    · simpa [consumeList2, hu] using ih m
    · by_cases hpos : 0 < m item
      · have hred : consumeList2 m (item :: rest)
            = (item :: (consumeList2 (decCount m item) rest).1,
               (consumeList2 (decCount m item) rest).2) := by
          simp [consumeList2, hu, hpos]
        rw [hred]
        obtain ⟨h1, h2⟩ := ih (decCount m item)
        by_cases ht : t = item
        · subst ht
          simp [decCount] at h1 h2
          simp [List.count_cons]
          omega
        · simp [decCount, ht] at h1 h2
          simp [List.count_cons, ht]
          omega
      · simpa [consumeList2, hu, hpos] using ih m

theorem consumeList2_mem (l2 : List String) (m : String → Nat) :
    ∀ t ∈ (consumeList2 m l2).1, 0 < m t := by
  induction l2 generalizing m with
  | nil => simp [consumeList2]
  | cons item rest ih =>
    intro t ht
    by_cases hu : item = "_"
    · exact ih m t (by simpa [consumeList2, hu] using ht)
    · by_cases hpos : 0 < m item
      · simp only [consumeList2, hu, hpos, ite_true, ite_false, if_pos, if_neg,
          List.mem_cons] at ht
        rcases ht with rfl | ht
        · exact hpos
        · have hrec := ih (decCount m item) t ht
          by_cases he : t = item
          · subst he
            simp [decCount] at hrec
            omega
          · simpa [decCount, he] using hrec
      · exact ih m t (by simpa [consumeList2, hu, hpos] using ht)

theorem consumeRemaining_count (rem : List String) (m : String → Nat)
    (hle : ∀ u, m u ≤ rem.count u) (t : String) :
    (consumeRemaining m rem).1.count t = m t := by
  induction rem generalizing m with
  | nil =>
    have := hle t
    simp only [List.count_nil, Nat.le_zero] at this
    simp [consumeRemaining, this]
  | cons item rest ih =>
    by_cases hpos : 0 < m item
    · have hle2 : ∀ u, decCount m item u ≤ rest.count u := by
        intro u
        have := hle u
        by_cases hu : u = item <;> simp [decCount, hu, List.count_cons] at this ⊢ <;> omega
      have h := ih (decCount m item) hle2
      have hred : consumeRemaining m (item :: rest)
          = (item :: (consumeRemaining (decCount m item) rest).1,
             (consumeRemaining (decCount m item) rest).2) := by
        simp [consumeRemaining, hpos]
      rw [hred]
      by_cases ht : t = item
      · subst ht
        simp [decCount] at h
        simp [List.count_cons]
        omega
      · simp [decCount, ht] at h
        simp [List.count_cons, ht]
        omega
    · have hle2 : ∀ u, m u ≤ rest.count u := by
        intro u
        have := hle u
        by_cases hu : u = item <;> simp [hu, List.count_cons] at this ⊢ <;> omega
      simpa [consumeRemaining, hpos] using ih m hle2

theorem consumeRemaining_full (rem : List String) (m : String → Nat)
    (hge : ∀ u, rem.count u ≤ m u) :
    (consumeRemaining m rem).1 = rem := by
  induction rem generalizing m with
  | nil => simp [consumeRemaining]
  | cons item rest ih =>
    have hpos : 0 < m item := by
      have := hge item
      simp [List.count_cons] at this
      omega
    have hge2 : ∀ u, rest.count u ≤ decCount m item u := by
      intro u
      have := hge u
      by_cases hu : u = item <;> simp [decCount, hu, List.count_cons] at this ⊢ <;> omega
    simp [consumeRemaining, hpos, ih (decCount m item) hge2]

theorem consumeRemaining_mem (rem : List String) (m : String → Nat) :
    ∀ t ∈ (consumeRemaining m rem).1, t ∈ rem := by
  induction rem generalizing m with
  | nil => simp [consumeRemaining]
  | cons item rest ih =>
    intro t ht
    by_cases hpos : 0 < m item
    · simp only [consumeRemaining, hpos, ite_true, List.mem_cons] at ht
      rcases ht with rfl | ht
      · exact List.mem_cons_self _ _
      · exact List.mem_cons_of_mem _ (ih (decCount m item) t ht)
    · exact List.mem_cons_of_mem _ (ih m t (by simpa [consumeRemaining, hpos] using ht))

/-! ### The spec's reference algorithm for `Reorder` (section 4.1)

`specReorder` follows the spec's words: build a multiplicity count of every
token in `list1`; walk `list2` left to right skipping `"_"`, appending each
token with positive remaining count and decrementing; then walk `list1` in
original order doing the same. Written with an explicit result accumulator,
with the multiplicity map taken directly as `list1.count`. -/

/-- One pass of the spec's algorithm: `skipPlaceholder` tells whether the
`"_"` placeholder is skipped (true for the `list2` pass). -/
def specPass (skipPlaceholder : Bool) :
    List String → (String → Nat) → List String → List String × (String → Nat)
  | [], m, acc => (acc, m)
  | tok :: rest, m, acc =>
    if skipPlaceholder && tok == "_" then specPass skipPlaceholder rest m acc
    else if m tok > 0 then
      specPass skipPlaceholder rest (fun t => if t == tok then m t - 1 else m t) (acc ++ [tok])
    else specPass skipPlaceholder rest m acc

/-- The spec's `Reorder(list1, list2)` reference algorithm. -/
def specReorder (list1 list2 : List String) : List String :=
  let afterList2 := specPass true list2 (fun t => list1.count t) []
  (specPass false list1 afterList2.2 afterList2.1).1

/-! ### Equivalence of the source's passes with the spec's passes -/

theorem decCount_lambda (m : String → Nat) (tok : String) :
    (fun t => if t = tok then m t - 1 else m t) = decCount m tok := rfl

theorem specPass_true_eq (l2 : List String) (m : String → Nat) (acc : List String) :
    specPass true l2 m acc
      = (acc ++ (consumeList2 m l2).1, (consumeList2 m l2).2) := by
  induction l2 generalizing m acc with
  | nil => simp [specPass, consumeList2]
  | cons tok rest ih =>
    by_cases hu : tok = "_"
    · simp [specPass, consumeList2, hu, ih]
    · have hbe : (tok == "_") = false := by simpa using hu
      by_cases hpos : 0 < m tok
      · simp [specPass, consumeList2, hbe, hu, hpos, decCount_lambda, ih]
      · simp [specPass, consumeList2, hbe, hu, hpos, ih]

theorem specPass_false_eq (l1 : List String) (m : String → Nat) (acc : List String) :
    specPass false l1 m acc
      = (acc ++ (consumeRemaining m l1).1, (consumeRemaining m l1).2) := by
  induction l1 generalizing m acc with
  | nil => simp [specPass, consumeRemaining]
  | cons tok rest ih =>
    by_cases hpos : 0 < m tok
    · simp [specPass, consumeRemaining, hpos, decCount_lambda, ih]
    · simp [specPass, consumeRemaining, hpos, ih]

theorem countMapOf_funext (l : List String) :
    countMapOf l = fun t => l.count t := by
  funext t
  exact countMapOf_eq_count l t

/-! ### Claim theorems about `orderedList` -/

/-- C1, counterexample: the multiset of `orderedList(list1, list2)` does not
always equal the multiset of `list1`: the empty-string token of `list1` is
falsy, is dropped by `list1.filter((item) => item)`, and never reaches the
output. -/
theorem orderedList_multiset_cex :
    (orderedList [""] []).count "" ≠ ([""] : List String).count "" := by decide

/-- C1, amended: for every `list1`, `list2` and token `t`, the output of
`orderedList(list1, list2)` contains `t` exactly as many times as the
truthy-filtered `list1` (i.e. `list1` with `""` tokens dropped) does. -/
theorem orderedList_multiset (list1 list2 : List String) (t : String) :
    (orderedList list1 list2).count t
      = (list1.filter (fun s => s ≠ "")).count t := by
  simp only [orderedList, List.count_append]
  set rem := list1.filter (fun s => s ≠ "") with hrem
  obtain ⟨h1, h2⟩ := consumeList2_count list2 (countMapOf rem) t
  have hle : ∀ u, (consumeList2 (countMapOf rem) list2).2 u ≤ rem.count u := by
    intro u
    have := (consumeList2_count list2 (countMapOf rem) u).1
    rw [countMapOf_eq_count] at this
    exact this
  have h3 := consumeRemaining_count rem _ hle t
  rw [countMapOf_eq_count] at h2
  omega

/-- C3, counterexample: `orderedList([""], [])` is `[]`, not `[""]`: the
empty desired-order list consumes nothing, but the falsy filter on `list1`
already dropped the empty-string token. -/
theorem orderedList_empty_list2_cex : orderedList [""] [] ≠ [""] := by decide

/-- C3, amended: `orderedList(list1, [])` returns `list1` with its
empty-string (falsy) tokens dropped, all other elements kept in their
original order; on a `list1` without empty strings it is `list1` itself. -/
theorem orderedList_empty_list2 (list1 : List String) :
    orderedList list1 [] = list1.filter (fun s => s ≠ "") := by
  simp only [orderedList, consumeList2, List.nil_append]
  exact consumeRemaining_full _ _
    (fun u => le_of_eq (countMapOf_eq_count _ u).symm)

/-- C4: the `Array.isArray` guards of `orderedList`: a non-array `list1`
yields the empty sequence whatever `list2` is; an array `list1` with a
non-array `list2` is returned unchanged; in particular
`orderedList("not-an-array", ["x"]) = []` and
`orderedList(["a","b"], "not-an-array") = ["a","b"]`. -/
theorem orderedListJS_guards :
    (∀ (v : String) (a2 : JsArg), orderedListJS (.notArr v) a2 = [])
    ∧ (∀ (l1 : List String) (v : String), orderedListJS (.arr l1) (.notArr v) = l1)
    ∧ orderedListJS (.notArr "not-an-array") (.arr ["x"]) = []
    ∧ orderedListJS (.arr ["a", "b"]) (.notArr "not-an-array") = ["a", "b"] := by
  refine ⟨fun v a2 => rfl, fun l1 v => rfl, rfl, rfl⟩

/-- C9: the output of `orderedList` never contains a falsy token: `""` is
filtered out of `list1` before counting and an `""` in `list2` never matches,
so the output has no `""`; consequently some elements of `list1` can be
missing from the output, e.g. `orderedList([""], []) = []`. -/
theorem orderedList_no_falsy :
    (∀ list1 list2 : List String, "" ∉ orderedList list1 list2)
    ∧ orderedList [""] [] = [] := by
  constructor
  · intro list1 list2 hmem
    simp only [orderedList, List.mem_append] at hmem
    rcases hmem with h | h
    · have hpos := consumeList2_mem list2 _ _ h
      rw [countMapOf_eq_count] at hpos
      have : "" ∈ list1.filter (fun s => s ≠ "") := List.count_pos_iff.mp hpos
      simp at this
    · have : "" ∈ list1.filter (fun s => s ≠ "") := consumeRemaining_mem _ _ _ h
      simp at this
  · decide

/-- C2, counterexample: `orderedList` does not implement the reference
algorithm on `list1` itself: at `list1 = [""]`, `list2 = []` the reference
algorithm returns `[""]` while `orderedList` returns `[]`. -/
theorem orderedList_spec_algorithm_cex :
    orderedList [""] [] ≠ specReorder [""] [] := by decide

/-- C2, amended: `orderedList(list1, list2)` equals the reference algorithm
(count `list1`'s tokens, consume mentions of `list2` skipping `"_"`, then
append leftovers in `list1` order) applied to `list1` with its falsy (empty
string) tokens dropped; unknown tokens of `list2` and mentions beyond the
available count are ignored, and
`orderedList(["a","b","a"], ["b","_","a"]) = ["b","a","a"]`. -/
theorem orderedList_spec_algorithm (list1 list2 : List String) :
    orderedList list1 list2
      = specReorder (list1.filter (fun s => s ≠ "")) list2
    ∧ orderedList ["a", "b", "a"] ["b", "_", "a"] = ["b", "a", "a"] := by
  refine ⟨?_, by decide⟩
  simp only [orderedList, specReorder]
  rw [← countMapOf_funext, specPass_true_eq, List.nil_append, specPass_false_eq]

/-! ### `deduplicateOptions` (utility module, lines 48–60) -/

/-- The `for (const option of ...)` loop of `deduplicateOptions`: `seen` is
the `seenValues` set (a list, only membership is used); an option whose value
was already seen is skipped, otherwise it is pushed and its value recorded. -/
def dedupLoop : List FieldOption → List String → List FieldOption
  | [], _ => []
  | o :: rest, seen =>
    if o.value ∈ seen then dedupLoop rest seen
    else o :: dedupLoop rest (o.value :: seen)

/-- `deduplicateOptions(options)` on a genuine array whose entries may be
null or undefined (`Option.none`); `options.filter((o) => o)` drops them. -/
def deduplicateOptions (options : List (Option FieldOption)) : List FieldOption :=
  dedupLoop (options.filterMap id) []

/-- Modelled from the spec's contract for `DeduplicateByValue` (section 4.3):
keep each entry only if its value has not been seen before, preserving
first-seen order — equivalently, keep the head and drop every later entry
sharing its value. Stated on the null-free list. -/
def dedupSpec : List FieldOption → List FieldOption
  | [] => []
  | o :: rest => o :: (dedupSpec rest).filter (fun p => p.value ≠ o.value)

example :
    deduplicateOptions [some ⟨"a", "A"⟩, none, some ⟨"a", "A2"⟩]
      = [⟨"a", "A"⟩] := by decide
example :
    dedupSpec [⟨"a", "A"⟩, ⟨"b", "B"⟩, ⟨"a", "A2"⟩]
      = [⟨"a", "A"⟩, ⟨"b", "B"⟩] := by decide

theorem dedupSpec_filter (l : List FieldOption) (x : String) :
    dedupSpec (l.filter (fun p => p.value ≠ x))
      = (dedupSpec l).filter (fun p => p.value ≠ x) := by
  induction l with
  | nil => rfl
  | cons o rest ih =>
    by_cases hx : o.value = x
    · subst hx
      have hcond : ¬(decide (o.value ≠ o.value) = true) := by simp
      calc dedupSpec ((o :: rest).filter (fun p => p.value ≠ o.value))
          = dedupSpec (rest.filter (fun p => p.value ≠ o.value)) := by
            rw [List.filter_cons, if_neg hcond]
        _ = (dedupSpec rest).filter (fun p => p.value ≠ o.value) := ih
        _ = ((dedupSpec rest).filter (fun p => p.value ≠ o.value)).filter
              (fun p => p.value ≠ o.value) := by
            rw [List.filter_filter]
            refine (List.filter_congr fun p hp => ?_).symm
            rw [Bool.and_self]
        _ = (dedupSpec (o :: rest)).filter (fun p => p.value ≠ o.value) := by
            simp only [dedupSpec]
            rw [List.filter_cons, if_neg hcond]
    · have hcond : decide (o.value ≠ x) = true := by simpa using hx
      calc dedupSpec ((o :: rest).filter (fun p => p.value ≠ x))
          = dedupSpec (o :: rest.filter (fun p => p.value ≠ x)) := by
            rw [List.filter_cons, if_pos hcond]
        _ = o :: ((dedupSpec rest).filter (fun p => p.value ≠ x)).filter
              (fun p => p.value ≠ o.value) := by
            simp only [dedupSpec, ih]
        _ = o :: (dedupSpec rest).filter
              (fun p => decide (p.value ≠ o.value) && decide (p.value ≠ x)) := by
            rw [List.filter_filter]
        _ = o :: (dedupSpec rest).filter
              (fun p => decide (p.value ≠ x) && decide (p.value ≠ o.value)) := by
            refine congrArg _ (List.filter_congr fun p hp => ?_)
            rw [Bool.and_comm]
        _ = (o :: (dedupSpec rest).filter (fun p => p.value ≠ o.value)).filter
              (fun p => p.value ≠ x) := by
            rw [List.filter_cons, if_pos hcond, List.filter_filter]
        _ = (dedupSpec (o :: rest)).filter (fun p => p.value ≠ x) := by
            simp only [dedupSpec]

theorem dedupLoop_eq_dedupSpec (l : List FieldOption) (seen : List String) :
    dedupLoop l seen = dedupSpec (l.filter (fun p => p.value ∉ seen)) := by
  induction l generalizing seen with
  | nil => rfl
  | cons o rest ih =>
    by_cases hs : o.value ∈ seen
    · have hcond : ¬(decide (o.value ∉ seen) = true) := by simpa using hs
      calc dedupLoop (o :: rest) seen
          = dedupLoop rest seen := by
            simp only [dedupLoop, if_pos hs]
        _ = dedupSpec (rest.filter (fun p => p.value ∉ seen)) := ih seen
        _ = dedupSpec ((o :: rest).filter (fun p => p.value ∉ seen)) := by
            rw [List.filter_cons, if_neg hcond]
    · have hcond : decide (o.value ∉ seen) = true := by simpa using hs
      calc dedupLoop (o :: rest) seen
          = o :: dedupLoop rest (o.value :: seen) := by
            simp only [dedupLoop, if_neg hs]
        _ = o :: dedupSpec (rest.filter (fun p => p.value ∉ o.value :: seen)) := by
            rw [ih (o.value :: seen)]
        _ = o :: dedupSpec ((rest.filter (fun p => p.value ∉ seen)).filter
              (fun p => p.value ≠ o.value)) := by
            rw [List.filter_filter]
            have hpred : rest.filter (fun p => p.value ∉ o.value :: seen)
                = rest.filter
                    (fun p => decide (p.value ≠ o.value) && decide (p.value ∉ seen)) :=
              List.filter_congr fun p hp => by
                by_cases h1 : p.value = o.value <;> by_cases h2 : p.value ∈ seen <;>
                  simp [h1, h2]
            rw [hpred]
        _ = o :: (dedupSpec (rest.filter (fun p => p.value ∉ seen))).filter
              (fun p => p.value ≠ o.value) := by
            rw [dedupSpec_filter]
        _ = dedupSpec (o :: rest.filter (fun p => p.value ∉ seen)) := by
            simp only [dedupSpec]
        _ = dedupSpec ((o :: rest).filter (fun p => p.value ∉ seen)) := by
            rw [List.filter_cons, if_pos hcond]

/-- C6: `deduplicateOptions` drops null/undefined entries and keeps exactly
the first occurrence of each value, in first-seen order (equal to the
specified dedup of the null-free input); in particular
`deduplicateOptions([{value:"a",label:"A"}, null, {value:"a",label:"A2"}])`
is `[{value:"a",label:"A"}]`. -/
theorem deduplicateOptions_spec (options : List (Option FieldOption)) :
    deduplicateOptions options = dedupSpec (options.filterMap id)
    ∧ deduplicateOptions [some ⟨"a", "A"⟩, none, some ⟨"a", "A2"⟩]
        = [⟨"a", "A"⟩] := by
  refine ⟨?_, by decide⟩
  rw [deduplicateOptions, dedupLoop_eq_dedupSpec]
  congr 1
  apply List.filter_eq_self.mpr
  intro p _
  simp

/-! ### The never-throw boundary (C7)

`orderedList` guards both arguments with `Array.isArray` and every path
returns, so it throws on no input. `deduplicateOptions` has no guard: its
first step is `options.filter(...)`, which on a non-array input (null,
undefined, a string, ...) is a TypeError. -/

/-- A JavaScript argument to `deduplicateOptions`: a genuine array whose
entries may be null/undefined, or a non-array value. -/
inductive JsOptionsArg where
  | arr (l : List (Option FieldOption))
  | notArr
deriving Repr

/-- `deduplicateOptions` at the JavaScript boundary: on a non-array argument
`options.filter` is not a function and the call throws, modelled as
`Except.error`. -/
def deduplicateOptionsJS : JsOptionsArg → Except String (List FieldOption)
  | .notArr => .error "TypeError: options.filter is not a function"
  | .arr l => .ok (deduplicateOptions l)

/-- C7, counterexample: the deduplication operation does not terminate
normally on every malformed input: on a non-array argument it throws a
TypeError instead of returning a fallback output. -/
theorem deduplicateOptionsJS_throws_cex :
    (deduplicateOptionsJS .notArr).isOk = false := by rfl

/-- C7, amended: `orderedList` never throws — on any pair of arguments,
malformed ones included, it returns a defined fallback (`[]` for a non-array
`list1`, `list1` unchanged for a non-array `list2`) — and `deduplicateOptions`
never throws when its argument is an array (entries may be null/undefined);
but a non-array argument makes `deduplicateOptions` throw a TypeError. -/
theorem neverThrow_amended :
    (∀ (v : String) (a2 : JsArg), orderedListJS (.notArr v) a2 = [])
    ∧ (∀ (l1 : List String) (v : String), orderedListJS (.arr l1) (.notArr v) = l1)
    ∧ (∀ (l1 l2 : List String),
        orderedListJS (.arr l1) (.arr l2) = orderedList l1 l2)
    ∧ (∀ l : List (Option FieldOption), (deduplicateOptionsJS (.arr l)).isOk = true)
    ∧ (deduplicateOptionsJS .notArr).isOk = false := by
  exact ⟨fun v a2 => rfl, fun l1 v => rfl, fun l1 l2 => rfl, fun l => rfl, rfl⟩

/-! ### `fieldOptionsUnion` (InputSettingsList.tsx, lines 166–171)

The source builds, for each input list, an object keyed by `option.value`
via `reduce((acc, option) => ({ ...acc, [option.value]: option }), {})`,
spreads the two objects (`{ ...options1Map, ...options2Map }`) and takes
`Object.values`. A JS object is modelled as an association list in key
insertion order; assigning an existing key overwrites its value in place,
assigning a fresh key appends. (For integer-like keys JS enumerates in
ascending numeric order instead of insertion order; that affects only the
order of `Object.values`, which no claim here states.) -/

/-- `{ ...m, [k]: v }`: overwrite `k` in place when present, else append. -/
def objUpsert (m : List (String × FieldOption)) (k : String) (v : FieldOption) :
    List (String × FieldOption) :=
  if m.any (fun p => p.1 = k) then
    m.map (fun p => if p.1 = k then (k, v) else p)
  else m ++ [(k, v)]

/-- `options.reduce((acc, option) => ({ ...acc, [option.value]: option }), {})`. -/
def toOptionsMap (opts : List FieldOption) : List (String × FieldOption) :=
  opts.foldl (fun acc o => objUpsert acc o.value o) []

/-- `{ ...m1, ...m2 }`. -/
def objSpread (m1 m2 : List (String × FieldOption)) :
    List (String × FieldOption) :=
  m2.foldl (fun acc p => objUpsert acc p.1 p.2) m1

/-- `fieldOptionsUnion(options1, options2)`:
`Object.values({ ...options1Map, ...options2Map })`. -/
def fieldOptionsUnion (options1 options2 : List FieldOption) : List FieldOption :=
  (objSpread (toOptionsMap options1) (toOptionsMap options2)).map Prod.snd

example :
    fieldOptionsUnion [⟨"yes", "Yes"⟩] [⟨"yes", "Y"⟩, ⟨"no", "No"⟩]
      = [⟨"yes", "Y"⟩, ⟨"no", "No"⟩] := by decide

/-! #### Association-list lemmas for the object model -/

theorem objUpsert_mem (m : List (String × FieldOption)) (k : String)
    (v : FieldOption) :
    ∀ p ∈ objUpsert m k v, p = (k, v) ∨ (p ∈ m ∧ p.1 ≠ k) := by
  intro p hp
  by_cases hany : m.any (fun q => decide (q.1 = k)) = true
  · rw [objUpsert, if_pos hany] at hp
    obtain ⟨q, hq, hqe⟩ := List.mem_map.mp hp
    by_cases hqk : q.1 = k
    · left
      rw [if_pos hqk] at hqe
      exact hqe.symm
    · right
      rw [if_neg hqk] at hqe
      exact hqe ▸ ⟨hq, hqk⟩
  · rw [objUpsert, if_neg hany] at hp
    rcases List.mem_append.mp hp with h | h
    · right
      refine ⟨h, fun hk => hany ?_⟩
      exact List.any_eq_true.mpr ⟨p, h, by simpa using hk⟩
    · left
      simpa using h
  /- the `decide` in `hany` matches the elaboration of `objUpsert`'s guard -/

theorem objUpsert_keys (m : List (String × FieldOption)) (k : String)
    (v : FieldOption) :
    (objUpsert m k v).map Prod.fst
      = if k ∈ m.map Prod.fst then m.map Prod.fst else m.map Prod.fst ++ [k] := by
  by_cases hk : k ∈ m.map Prod.fst
  · obtain ⟨q, hq, hqe⟩ := List.mem_map.mp hk
    have hany : m.any (fun p => decide (p.1 = k)) = true :=
      List.any_eq_true.mpr ⟨q, hq, by simpa using hqe⟩
    rw [objUpsert, if_pos hany, if_pos hk, List.map_map]
    refine List.map_congr_left fun p hp => ?_
    by_cases hpk : p.1 = k
    · simp [hpk]
    · simp [hpk]
  · have hany : ¬(m.any (fun p => decide (p.1 = k)) = true) := by
      intro hc
      obtain ⟨q, hq, hqk⟩ := List.any_eq_true.mp hc
      exact hk (List.mem_map.mpr ⟨q, hq, by simpa using hqk⟩)
    rw [objUpsert, if_neg hany, if_neg hk, List.map_append]
    rfl

theorem objUpsert_key_mem (m : List (String × FieldOption)) (k : String)
    (v : FieldOption) (u : String) :
    u ∈ (objUpsert m k v).map Prod.fst ↔ u = k ∨ u ∈ m.map Prod.fst := by
  rw [objUpsert_keys]
  by_cases hk : k ∈ m.map Prod.fst
  · rw [if_pos hk]
    constructor
    · exact fun h => Or.inr h
    · rintro (rfl | h)
      · exact hk
      · exact h
  · rw [if_neg hk, List.mem_append]
    simp [or_comm]

theorem objUpsert_keys_nodup (m : List (String × FieldOption)) (k : String)
    (v : FieldOption) (hm : (m.map Prod.fst).Nodup) :
    ((objUpsert m k v).map Prod.fst).Nodup := by
  rw [objUpsert_keys]
  by_cases hk : k ∈ m.map Prod.fst
  · rwa [if_pos hk]
  · rw [if_neg hk, List.nodup_append]
    refine ⟨hm, List.nodup_singleton k, fun a ha hb => ?_⟩
    rw [List.mem_singleton] at hb
    exact hk (hb ▸ ha)

theorem objUpsert_wf (m : List (String × FieldOption)) (v : FieldOption)
    (hm : ∀ p ∈ m, p.1 = p.2.value) :
    ∀ p ∈ objUpsert m v.value v, p.1 = p.2.value := by
  intro p hp
  rcases objUpsert_mem m v.value v p hp with rfl | ⟨hpm, _⟩
  · rfl
  · exact hm p hpm

/-! #### The `reduce` folds -/

theorem foldUpsert_mem (opts : List FieldOption) (acc : List (String × FieldOption)) :
    ∀ p ∈ opts.foldl (fun a o => objUpsert a o.value o) acc,
      p ∈ acc ∨ (p.2 ∈ opts ∧ p.1 = p.2.value) := by
  induction opts generalizing acc with
  | nil => exact fun p hp => Or.inl hp
  | cons o rest ih =>
    intro p hp
    rcases ih (objUpsert acc o.value o) p hp with h | ⟨h1, h2⟩
    · rcases objUpsert_mem acc o.value o p h with rfl | ⟨hacc, _⟩
      · exact Or.inr ⟨List.mem_cons_self o rest, rfl⟩
      · exact Or.inl hacc
    · exact Or.inr ⟨List.mem_cons_of_mem o h1, h2⟩

theorem foldUpsert_keys_mem (opts : List FieldOption)
    (acc : List (String × FieldOption)) (u : String) :
    u ∈ (opts.foldl (fun a o => objUpsert a o.value o) acc).map Prod.fst
      ↔ u ∈ acc.map Prod.fst ∨ u ∈ opts.map FieldOption.value := by
  induction opts generalizing acc with
  | nil => simp
  | cons o rest ih =>
    rw [List.foldl_cons, ih (objUpsert acc o.value o)]
    rw [objUpsert_key_mem]
    simp only [List.map_cons, List.mem_cons]
    tauto

theorem foldUpsert_keys_nodup (opts : List FieldOption)
    (acc : List (String × FieldOption)) (h : (acc.map Prod.fst).Nodup) :
    ((opts.foldl (fun a o => objUpsert a o.value o) acc).map Prod.fst).Nodup := by
  induction opts generalizing acc with
  | nil => exact h
  | cons o rest ih => exact ih _ (objUpsert_keys_nodup acc o.value o h)

theorem foldUpsert_wf (opts : List FieldOption)
    (acc : List (String × FieldOption)) (h : ∀ p ∈ acc, p.1 = p.2.value) :
    ∀ p ∈ opts.foldl (fun a o => objUpsert a o.value o) acc,
      p.1 = p.2.value := by
  induction opts generalizing acc with
  | nil => exact h
  | cons o rest ih => exact ih _ (objUpsert_wf acc o h)

theorem objSpread_mem (m1 m2 : List (String × FieldOption)) :
    ∀ p ∈ objSpread m1 m2,
      p ∈ m2 ∨ (p ∈ m1 ∧ p.1 ∉ m2.map Prod.fst) := by
  induction m2 generalizing m1 with
  | nil => exact fun p hp => Or.inr ⟨hp, by simp⟩
  | cons q rest ih =>
    intro p hp
    rcases ih (objUpsert m1 q.1 q.2) p hp with h | ⟨h1, h2⟩
    · exact Or.inl (List.mem_cons_of_mem q h)
    · rcases objUpsert_mem m1 q.1 q.2 p h1 with rfl | ⟨hm1, hne⟩
      · exact Or.inl (by simp)
      · refine Or.inr ⟨hm1, ?_⟩
        simp only [List.map_cons, List.mem_cons]
        rintro (h | h)
        · exact hne h
        · exact h2 h

theorem objSpread_keys_mem (m1 m2 : List (String × FieldOption)) (u : String) :
    u ∈ (objSpread m1 m2).map Prod.fst
      ↔ u ∈ m1.map Prod.fst ∨ u ∈ m2.map Prod.fst := by
  induction m2 generalizing m1 with
  | nil => simp [objSpread]
  | cons q rest ih =>
    show u ∈ (objSpread (objUpsert m1 q.1 q.2) rest).map Prod.fst ↔ _
    rw [ih (objUpsert m1 q.1 q.2), objUpsert_key_mem]
    simp only [List.map_cons, List.mem_cons]
    tauto

theorem objSpread_keys_nodup (m1 m2 : List (String × FieldOption))
    (h : (m1.map Prod.fst).Nodup) :
    ((objSpread m1 m2).map Prod.fst).Nodup := by
  induction m2 generalizing m1 with
  | nil => exact h
  | cons q rest ih => exact ih _ (objUpsert_keys_nodup m1 q.1 q.2 h)

theorem objSpread_wf (m1 m2 : List (String × FieldOption))
    (h1 : ∀ p ∈ m1, p.1 = p.2.value) (h2 : ∀ p ∈ m2, p.1 = p.2.value) :
    ∀ p ∈ objSpread m1 m2, p.1 = p.2.value := by
  induction m2 generalizing m1 with
  | nil => exact h1
  | cons q rest ih =>
    have hq : q.1 = q.2.value := h2 q (List.mem_cons_self q rest)
    have hup : ∀ p ∈ objUpsert m1 q.1 q.2, p.1 = p.2.value := by
      rw [hq]
      exact objUpsert_wf m1 q.2 h1
    exact ih (objUpsert m1 q.1 q.2) hup
      (fun p hp => h2 p (List.mem_cons_of_mem q hp))

/-- C5: `fieldOptionsUnion(optionsA, optionsB)` returns one option per
distinct value of the two inputs: its values are pairwise distinct even when
the inputs hold duplicates, a value occurs in the output exactly when it
occurs in `optionsA` or `optionsB`, and the entry returned for a value that
occurs in `optionsB` is an entry of `optionsB` (optionsB wins). -/
theorem fieldOptionsUnion_spec (options1 options2 : List FieldOption) :
    ((fieldOptionsUnion options1 options2).map FieldOption.value).Nodup
    ∧ (∀ v : String,
        v ∈ (fieldOptionsUnion options1 options2).map FieldOption.value
          ↔ v ∈ (options1 ++ options2).map FieldOption.value)
    ∧ (∀ o ∈ fieldOptionsUnion options1 options2,
        o.value ∈ options2.map FieldOption.value → o ∈ options2) := by
  have wf1 : ∀ p ∈ toOptionsMap options1, p.1 = p.2.value :=
    foldUpsert_wf options1 [] (by simp)
  have wf2 : ∀ p ∈ toOptionsMap options2, p.1 = p.2.value :=
    foldUpsert_wf options2 [] (by simp)
  have wfS : ∀ p ∈ objSpread (toOptionsMap options1) (toOptionsMap options2),
      p.1 = p.2.value :=
    objSpread_wf _ _ wf1 wf2
  have hvals : (fieldOptionsUnion options1 options2).map FieldOption.value
      = (objSpread (toOptionsMap options1) (toOptionsMap options2)).map Prod.fst := by
    rw [fieldOptionsUnion, List.map_map]
    exact List.map_congr_left fun p hp => (wfS p hp).symm
  have hkeys1 : ∀ u : String,
      u ∈ (toOptionsMap options1).map Prod.fst
        ↔ u ∈ options1.map FieldOption.value := by
    intro u
    rw [toOptionsMap, foldUpsert_keys_mem]
    simp
  have hkeys2 : ∀ u : String,
      u ∈ (toOptionsMap options2).map Prod.fst
        ↔ u ∈ options2.map FieldOption.value := by
    intro u
    rw [toOptionsMap, foldUpsert_keys_mem]
    simp
  refine ⟨?_, ?_, ?_⟩
  · rw [hvals]
    exact objSpread_keys_nodup _ _ (foldUpsert_keys_nodup options1 [] (by simp))
  · intro v
    rw [hvals, objSpread_keys_mem, hkeys1, hkeys2, List.map_append, List.mem_append]
  · intro o ho hv
    obtain ⟨p, hp, hpo⟩ := List.mem_map.mp ho
    rcases objSpread_mem _ _ p hp with h | ⟨h1, h2⟩
    · rcases foldUpsert_mem options2 [] p h with hfalse | ⟨hmem, _⟩
      · simp at hfalse
      · exact hpo ▸ hmem
    · exfalso
      apply h2
      rw [hkeys2]
      have : p.1 = o.value := by rw [wfS p hp, hpo]
      exact this ▸ hv

/-! ### `safeJSONParse` (utility module, lines 127–148)

JavaScript values are modelled with their `typeof` tags; `JSON.parse` is a
host builtin, so it is taken as a parameter `jsonParse` that either returns
a value or fails (the thrown `SyntaxError`), and every theorem below holds
for an arbitrary `jsonParse`. The second component of the result records
whether `JSON.parse` was attempted. -/

/-- A JavaScript value, at the granularity `safeJSONParse` observes. -/
inductive JSVal where
  | str (s : String)
  | num (n : Int)
  | bool (b : Bool)
  | arr (elems : List JSVal)
  | obj (fields : List (String × JSVal))
  | null
  | undef

/-- The `typeof` operator (`typeof null` is `"object"`). -/
def typeofJS : JSVal → String
  | .str _ => "string"
  | .num _ => "number"
  | .bool _ => "boolean"
  | .arr _ => "object"
  | .obj _ => "object"
  | .null => "object"
  | .undef => "undefined"

/-- `Array.isArray`. -/
def isArrayJS : JSVal → Bool
  | .arr _ => true
  | _ => false

/-- `safeJSONParse(input, defaultValue)`; the Bool flag records whether the
`JSON.parse` call was reached. The `Array.isArray` ternary of the source is
the implication `isArrayJS input → isArrayJS defaultValue`, and the
`try/catch` is the `Except` match with the catch returning `defaultValue`. -/
def safeJSONParse (jsonParse : String → Except Unit JSVal)
    (input defaultValue : JSVal) : JSVal × Bool :=
  match input with
  | .undef => (defaultValue, false)
  | .null => (defaultValue, false)
  | inp =>
    if typeofJS inp = typeofJS defaultValue
        ∧ (isArrayJS inp = true → isArrayJS defaultValue = true) then
      (inp, false)
    else
      match inp with
      | .str s =>
        match jsonParse s with
        | .ok parsed =>
          (if typeofJS parsed = typeofJS defaultValue then parsed
           else defaultValue, true)
        | .error _ => (defaultValue, true)
      | _ => (defaultValue, false)

/-- C10: for a string input with a string default, `safeJSONParse` returns
the input itself verbatim without attempting `JSON.parse`; `JSON.parse` is
reached only when the input is a string and the default's type is not
string; and when the parse fails the function still returns (the input on a
type match, otherwise the default) instead of throwing. -/
theorem safeJSONParse_spec :
    (∀ (jsonParse : String → Except Unit JSVal) (s t : String),
        safeJSONParse jsonParse (.str s) (.str t) = (.str s, false))
    ∧ (∀ (jsonParse : String → Except Unit JSVal) (input defaultValue : JSVal),
        (safeJSONParse jsonParse input defaultValue).2 = true →
          (∃ s, input = JSVal.str s) ∧ typeofJS defaultValue ≠ "string")
    ∧ (∀ (jsonParse : String → Except Unit JSVal) (s : String)
        (defaultValue : JSVal),
        jsonParse s = .error () →
          safeJSONParse jsonParse (.str s) defaultValue = (.str s, false)
          ∨ safeJSONParse jsonParse (.str s) defaultValue
              = (defaultValue, true)) := by
  refine ⟨?_, ?_, ?_⟩
  · intro jsonParse s t
    rfl
  · intro jsonParse input d h
    cases input with
    | str s =>
      by_cases hc : typeofJS (JSVal.str s) = typeofJS d
          ∧ (isArrayJS (JSVal.str s) = true → isArrayJS d = true)
      · exfalso
        simp only [safeJSONParse, if_pos hc] at h
        exact Bool.false_ne_true h
      · refine ⟨⟨s, rfl⟩, fun hd => ?_⟩
        exact hc ⟨hd.symm, fun hfalse => by simp [isArrayJS] at hfalse⟩
    | num n =>
      exfalso
      simp only [safeJSONParse] at h
      split at h <;> simp at h
    | bool b =>
      exfalso
      simp only [safeJSONParse] at h
      split at h <;> simp at h
    | arr elems =>
      exfalso
      simp only [safeJSONParse] at h
      split at h <;> simp at h
    | obj fields =>
      exfalso
      simp only [safeJSONParse] at h
      split at h <;> simp at h
    | null =>
      exfalso
      simp only [safeJSONParse] at h
      exact Bool.false_ne_true h
    | undef =>
      exfalso
      simp only [safeJSONParse] at h
      exact Bool.false_ne_true h
  · intro jsonParse s d herr
    by_cases hc : typeofJS (JSVal.str s) = typeofJS d
        ∧ (isArrayJS (JSVal.str s) = true → isArrayJS d = true)
    · left
      simp only [safeJSONParse, if_pos hc]
    · right
      simp only [safeJSONParse, if_neg hc, herr]

end Hikma
